import Mathlib

/-!
Verification of the upload-registry session model and the analytics kernel
of `streamlit_dashboard.py`: file-history submit/remove/select semantics,
status classification, value counting, optional filters, date coercion and
the monthly forecast block.  All definitions are shallow embeddings of the
corresponding Python code.
-/

namespace StreamlitDashboard

/-- One entry of `st.session_state.file_history`: the dict built at upload
time with keys `name`, `size`, `upload_time`, `file_obj`.  The timestamp
and the payload handle are modelled as opaque naturals. -/
structure FileInfo where
  name : String
  size : Nat
  uploadTime : Nat
  fileObj : Nat
deriving DecidableEq

/-- The session state relevant to the registry: the ordered `file_history`
list and the nullable `current_file_index`. -/
structure Registry where
  fileHistory : List FileInfo
  currentFileIndex : Option Nat
deriving DecidableEq

/-- Initial session state: empty history, no current index. -/
def emptyRegistry : Registry := ⟨[], none⟩

/-- Python's `list.index`: position of the first occurrence of `a`. -/
def indexOfName (a : String) : List String → Nat
  | [] => 0
  | b :: t => if b = a then 0 else indexOfName a t + 1

/-- Names of the history entries in order (`file_names` in the source). -/
def namesOf (s : Registry) : List String := s.fileHistory.map (fun f => f.name)

/-- The upload handler (lines 59-77): if the uploaded name is not among
the history names, append the new entry and make it current; otherwise
overwrite the entry at the first index carrying that name and make that
index current.  A total function: it never fails. -/
def submit (s : Registry) (f : FileInfo) : Registry :=
  if f.name ∈ namesOf s then
    ⟨s.fileHistory.set (indexOfName f.name (namesOf s)) f,
      some (indexOfName f.name (namesOf s))⟩
  else
    ⟨s.fileHistory ++ [f], some s.fileHistory.length⟩

/-- Folding a whole sequence of uploads from the initial state. -/
def submitAll (fs : List FileInfo) : Registry := fs.foldl submit emptyRegistry

/-- The delete-button handler (lines 107-113): `file_history.pop(idx)`,
then if the current index equals `idx` it becomes `None`; otherwise, when
it is truthy (neither `None` nor `0`, Python truthiness) and greater than
`idx`, it is decremented; otherwise it is unchanged. -/
def remove (s : Registry) (idx : Nat) : Registry :=
  ⟨s.fileHistory.eraseIdx idx,
    match s.currentFileIndex with
    | none => none
    | some c =>
      if c = idx then none
      else if c ≠ 0 ∧ idx < c then some (c - 1)
      else some c⟩

/-- The clear-all-history button (lines 117-120). -/
def clearAll (_s : Registry) : Registry := ⟨[], none⟩

/-- Selection of the file to process (lines 126-131): the current history
entry when a current index is set and the history is non-empty, otherwise
the file uploaded in this request, if any. -/
def currentFileOf (s : Registry) (uploaded : Option FileInfo) : Option FileInfo :=
  match s.currentFileIndex with
  | some c => if 0 < s.fileHistory.length then s.fileHistory[c]? else uploaded
  | none => uploaded

lemma indexOfName_lt_length {a : String} :
    ∀ {l : List String}, a ∈ l → indexOfName a l < l.length := by
  intro l
  induction l with
  | nil => intro h; cases h
  | cons b t ih =>
    intro h
    by_cases hb : b = a
    · simp [indexOfName, hb]
    · have ht : a ∈ t := by
        rcases List.mem_cons.mp h with h | h
        · exact absurd h.symm hb
        · exact h
      simpa [indexOfName, hb] using ih ht

lemma getElem?_indexOfName {a : String} :
    ∀ {l : List String}, a ∈ l → l[indexOfName a l]? = some a := by
  intro l
  induction l with
  | nil => intro h; cases h
  | cons b t ih =>
    intro h
    by_cases hb : b = a
    · simp [indexOfName, hb]
    · have ht : a ∈ t := by
        rcases List.mem_cons.mp h with h | h
        · exact absurd h.symm hb
        · exact h
      simpa [indexOfName, hb] using ih ht

lemma set_indexOfName {a : String} :
    ∀ {l : List String}, a ∈ l → l.set (indexOfName a l) a = l := by
  intro l
  induction l with
  | nil => intro h; cases h
  | cons b t ih =>
    intro h
    by_cases hb : b = a
    · simp [indexOfName, hb]
    · have ht : a ∈ t := by
        rcases List.mem_cons.mp h with h | h
        · exact absurd h.symm hb
        · exact h
      simp [indexOfName, hb, ih ht]

lemma submit_of_mem {s : Registry} {f : FileInfo} (h : f.name ∈ namesOf s) :
    submit s f = ⟨s.fileHistory.set (indexOfName f.name (namesOf s)) f,
      some (indexOfName f.name (namesOf s))⟩ := by
  unfold submit
  rw [if_pos h]

lemma submit_of_not_mem {s : Registry} {f : FileInfo} (h : f.name ∉ namesOf s) :
    submit s f = ⟨s.fileHistory ++ [f], some s.fileHistory.length⟩ := by
  unfold submit
  rw [if_neg h]

lemma namesOf_submit (s : Registry) (f : FileInfo) :
    namesOf (submit s f)
      = if f.name ∈ namesOf s then namesOf s else namesOf s ++ [f.name] := by
  by_cases h : f.name ∈ namesOf s
  · rw [if_pos h, submit_of_mem h]
    show (s.fileHistory.set _ f).map (fun f => f.name) = namesOf s
    rw [List.map_set]
    exact set_indexOfName h
  · rw [if_neg h, submit_of_not_mem h]
    show (s.fileHistory ++ [f]).map (fun f => f.name) = namesOf s ++ [f.name]
    simp [namesOf]

lemma mem_namesOf_submitAll (fs : List FileInfo) (a : String) :
    a ∈ namesOf (submitAll fs) ↔ a ∈ fs.map (fun f => f.name) := by
  induction fs using List.reverseRecOn with
  | nil => simp [submitAll, emptyRegistry, namesOf]
  | append_singleton fs f ih =>
    have hfold : submitAll (fs ++ [f]) = submit (submitAll fs) f := by
      simp [submitAll, List.foldl_append]
    rw [hfold, namesOf_submit]
    by_cases h : f.name ∈ namesOf (submitAll fs)
    · rw [if_pos h]
      simp only [List.map_append, List.map_cons, List.map_nil, List.mem_append,
        List.mem_singleton]
      constructor
      · intro ha
        exact Or.inl (ih.mp ha)
      · intro ha
        rcases ha with ha | ha
        · exact ih.mpr ha
        · rw [ha]; exact h
    · rw [if_neg h]
      simp only [List.map_append, List.map_cons, List.map_nil, List.mem_append,
        List.mem_singleton]
      constructor
      · intro ha
        rcases ha with ha | ha
        · exact Or.inl (ih.mp ha)
        · exact Or.inr ha
      · intro ha
        rcases ha with ha | ha
        · exact Or.inl (ih.mpr ha)
        · exact Or.inr ha

lemma submitAll_length (fs : List FileInfo) :
    (submitAll fs).fileHistory.length = ((fs.map (fun f => f.name)).toFinset).card := by
  induction fs using List.reverseRecOn with
  | nil => simp [submitAll, emptyRegistry]
  | append_singleton fs f ih =>
    have hfold : submitAll (fs ++ [f]) = submit (submitAll fs) f := by
      simp [submitAll, List.foldl_append]
    have htf : ((fs ++ [f]).map (fun f => f.name)).toFinset
        = insert f.name ((fs.map (fun f => f.name)).toFinset) := by
      ext a
      simp [List.mem_toFinset, or_comm]
    rw [hfold, htf]
    by_cases h : f.name ∈ namesOf (submitAll fs)
    · have hf : f.name ∈ fs.map (fun f => f.name) := (mem_namesOf_submitAll fs _).mp h
      have hins : insert f.name ((fs.map (fun f => f.name)).toFinset)
          = (fs.map (fun f => f.name)).toFinset :=
        Finset.insert_eq_self.mpr (List.mem_toFinset.mpr hf)
      rw [hins, ← ih, submit_of_mem h]
      simp
    · have hf : f.name ∉ fs.map (fun f => f.name) :=
        fun hc => h ((mem_namesOf_submitAll fs _).mpr hc)
      rw [Finset.card_insert_of_not_mem (fun hc => hf (List.mem_toFinset.mp hc)), ← ih,
        submit_of_not_mem h]
      simp

/-- Claim C1: `remove(i)` deletes the entry at `i` and shifts subsequent
indices down by one; if `i` was the current index, current becomes none;
if the current index was greater than `i`, it is decremented and still
names the same entry afterwards; and the concrete scenario with entries
`x.xlsx`, `y.xlsx` and current index `1` behaves accordingly under
`remove 0`. -/
theorem c1_remove_registry :
    (∀ (s : Registry) (i : Nat), (remove s i).fileHistory = s.fileHistory.eraseIdx i)
    ∧ (∀ (s : Registry) (i j : Nat), i ≤ j →
        (remove s i).fileHistory[j]? = s.fileHistory[j + 1]?)
    ∧ (∀ (s : Registry) (i j : Nat), j < i →
        (remove s i).fileHistory[j]? = s.fileHistory[j]?)
    ∧ (∀ (s : Registry) (i c : Nat), s.currentFileIndex = some c → c = i →
        (remove s i).currentFileIndex = none)
    ∧ (∀ (s : Registry) (i c : Nat), s.currentFileIndex = some c → i < c →
        (remove s i).currentFileIndex = some (c - 1)
        ∧ ((remove s i).fileHistory[c - 1]?).map (fun f => f.name)
            = (s.fileHistory[c]?).map (fun f => f.name))
    ∧ remove ⟨[⟨"x.xlsx", 7, 0, 0⟩, ⟨"y.xlsx", 9, 1, 1⟩], some 1⟩ 0
        = ⟨[⟨"y.xlsx", 9, 1, 1⟩], some 0⟩ := by
  refine ⟨fun s i => rfl, ?_, ?_, ?_, ?_, by decide⟩
  · intro s i j hij
    show (s.fileHistory.eraseIdx i)[j]? = _
    rw [List.getElem?_eraseIdx]
    simp [Nat.not_lt.mpr hij]
  · intro s i j hji
    show (s.fileHistory.eraseIdx i)[j]? = _
    rw [List.getElem?_eraseIdx]
    simp [hji]
  · intro s i c hc hci
    simp [remove, hc, hci]
  · intro s i c hc hic
    have hc0 : c ≠ 0 := Nat.pos_iff_ne_zero.mp (Nat.lt_of_le_of_lt (Nat.zero_le i) hic)
    have hci : c ≠ i := Ne.symm (Nat.ne_of_lt hic)
    constructor
    · simp [remove, hc, hci, hc0, hic]
    · show ((s.fileHistory.eraseIdx i)[c - 1]?).map _ = _
      rw [List.getElem?_eraseIdx]
      have hle : i ≤ c - 1 := Nat.le_sub_one_of_lt hic
      have hsucc : c - 1 + 1 = c := Nat.succ_pred_eq_of_pos (Nat.pos_of_ne_zero hc0)
      simp [Nat.not_lt.mpr hle, hsucc]

/-- Claim C1 witness: the general decrement part of `c1_remove_registry`
applied to the two-entry scenario. -/
theorem c1_remove_registry_witness :
    (remove ⟨[⟨"x.xlsx", 7, 0, 0⟩, ⟨"y.xlsx", 9, 1, 1⟩], some 1⟩ 0).currentFileIndex = some 0
    ∧ ((remove ⟨[⟨"x.xlsx", 7, 0, 0⟩, ⟨"y.xlsx", 9, 1, 1⟩], some 1⟩ 0).fileHistory[0]?).map
        (fun f => f.name)
      = (([⟨"x.xlsx", 7, 0, 0⟩, ⟨"y.xlsx", 9, 1, 1⟩] : List FileInfo)[1]?).map
        (fun f => f.name) :=
  c1_remove_registry.2.2.2.2.1 ⟨[⟨"x.xlsx", 7, 0, 0⟩, ⟨"y.xlsx", 9, 1, 1⟩], some 1⟩ 0 1
    rfl (by decide)

/-- Claim C2: the entry count after any sequence of submits equals the
number of distinct submitted names; a new name is appended and becomes
current; re-submitting an existing name overwrites that entry in place at
its first index (which carried the same name), makes it current, and
leaves the entry count unchanged.  `submit` is a total function, so it
never fails. -/
theorem c2_submit_registry :
    (∀ fs : List FileInfo,
      (submitAll fs).fileHistory.length = ((fs.map (fun f => f.name)).toFinset).card)
    ∧ (∀ (s : Registry) (f : FileInfo), f.name ∉ namesOf s →
        submit s f = ⟨s.fileHistory ++ [f], some s.fileHistory.length⟩)
    ∧ (∀ (s : Registry) (f : FileInfo), f.name ∈ namesOf s →
        (submit s f).fileHistory
            = s.fileHistory.set (indexOfName f.name (namesOf s)) f
        ∧ (submit s f).currentFileIndex = some (indexOfName f.name (namesOf s))
        ∧ (submit s f).fileHistory.length = s.fileHistory.length
        ∧ (namesOf s)[indexOfName f.name (namesOf s)]? = some f.name) := by
  refine ⟨submitAll_length, fun s f h => submit_of_not_mem h, ?_⟩
  intro s f h
  rw [submit_of_mem h]
  exact ⟨rfl, rfl, by simp, getElem?_indexOfName h⟩

/-- Claim C2 witness: re-submitting the name `a.xlsx` with new metadata
replaces the single entry in place, keeps the count at one and makes index
0 current. -/
theorem c2_submit_registry_witness :
    (submit ⟨[⟨"a.xlsx", 1, 0, 0⟩], some 0⟩ ⟨"a.xlsx", 2, 5, 1⟩).fileHistory
        = [⟨"a.xlsx", 2, 5, 1⟩]
    ∧ (submit ⟨[⟨"a.xlsx", 1, 0, 0⟩], some 0⟩ ⟨"a.xlsx", 2, 5, 1⟩).currentFileIndex
        = some 0 := by
  have h := c2_submit_registry.2.2 ⟨[⟨"a.xlsx", 1, 0, 0⟩], some 0⟩ ⟨"a.xlsx", 2, 5, 1⟩
    (by decide)
  exact ⟨by rw [h.1]; decide, by rw [h.2.1]; decide⟩

/-- Claim C10: when no current registry entry is selected, the processed
file falls back to the file uploaded in the same request. -/
theorem c10_current_file_fallback (s : Registry) (f : FileInfo)
    (h : s.currentFileIndex = none) :
    currentFileOf s (some f) = some f := by
  simp [currentFileOf, h]

/-- Claim C10 witness: after removing the single current entry, the
just-uploaded file is processed. -/
theorem c10_current_file_fallback_witness :
    currentFileOf (remove ⟨[⟨"a.xlsx", 1, 0, 0⟩], some 0⟩ 0) (some ⟨"a.xlsx", 1, 0, 0⟩)
      = some ⟨"a.xlsx", 1, 0, 0⟩ :=
  c10_current_file_fallback (remove ⟨[⟨"a.xlsx", 1, 0, 0⟩], some 0⟩ 0)
    ⟨"a.xlsx", 1, 0, 0⟩ (by decide)

/-- A typed cell of the normalized table: text, integer, date (a day
number) or absent (`NaN`/`NaT`). -/
inductive Cell where
  | str (s : String)
  | num (n : Int)
  | date (d : Nat)
  | absent
deriving DecidableEq

/-- One row: a mapping from column name to cell, as an association list. -/
abbrev Row := List (String × Cell)

/-- Cell of row `r` in column `c`; a column missing from the row reads as
absent. -/
def getCell (r : Row) (c : String) : Cell :=
  match r.find? (fun p => p.1 == c) with
  | some p => p.2
  | none => Cell.absent

/-- The normalized analysis table: column names plus rows. -/
structure Table where
  cols : List String
  rows : List Row
deriving DecidableEq

lemma getCell_cons (a : String) (v : Cell) (t : Row) (c : String) :
    getCell ((a, v) :: t) c = if a = c then v else getCell t c := by
  by_cases h : a = c
  · simp [getCell, List.find?, h]
  · have hbeq : (a == c) = false := by simp [h]
    simp [getCell, List.find?, h, hbeq]

/-- One sidebar filter (lines 251-279): equality on a column, or an
inclusive date range on a column. -/
inductive FilterPred where
  | eqFilter (col : String) (value : Cell)
  | dateRange (col : String) (lo hi : Nat)
deriving DecidableEq

/-- The column a filter refers to. -/
def filterColOf : FilterPred → String
  | FilterPred.eqFilter c _ => c
  | FilterPred.dateRange c _ _ => c

/-- Row predicate of one filter; a date-range comparison against an
absent or non-date cell is false, as NaT comparisons are in pandas. -/
def rowKeep (p : FilterPred) (r : Row) : Bool :=
  match p with
  | FilterPred.eqFilter c v => getCell r c == v
  | FilterPred.dateRange c lo hi =>
    match getCell r c with
    | Cell.date d => decide (lo ≤ d) && decide (d ≤ hi)
    | _ => false

/-- Applying one filter: a filter naming a column absent from the table is
a no-op, mirroring the `if col in df.columns` guards of the source. -/
def applyFilter (t : Table) (p : FilterPred) : Table :=
  if filterColOf p ∈ t.cols then ⟨t.cols, t.rows.filter (rowKeep p)⟩ else t

/-- The whole filter pipeline, applied left to right. -/
def applyFilters (t : Table) (ps : List FilterPred) : Table := ps.foldl applyFilter t

/-- Claim C7: a filter predicate naming a column absent from the table
leaves the table unchanged — both as a single application and inside the
pipeline — and never fails (the pipeline is a total function). -/
theorem c7_absent_column_filter_noop (t : Table) (p : FilterPred) (ps : List FilterPred)
    (h : filterColOf p ∉ t.cols) :
    applyFilter t p = t ∧ applyFilters t (p :: ps) = applyFilters t ps := by
  have h1 : applyFilter t p = t := by simp [applyFilter, h]
  exact ⟨h1, by simp [applyFilters, h1]⟩

/-- Claim C7 witness: an equality filter on the missing `Branch` column
leaves a one-row `State` table unchanged. -/
theorem c7_absent_column_filter_noop_witness :
    applyFilter ⟨["State"], [[("State", Cell.str "MH")]]⟩
        (FilterPred.eqFilter "Branch" (Cell.str "X"))
      = ⟨["State"], [[("State", Cell.str "MH")]]⟩
    ∧ applyFilters ⟨["State"], [[("State", Cell.str "MH")]]⟩
        [FilterPred.eqFilter "Branch" (Cell.str "X")]
      = applyFilters ⟨["State"], [[("State", Cell.str "MH")]]⟩ [] :=
  c7_absent_column_filter_noop ⟨["State"], [[("State", Cell.str "MH")]]⟩
    (FilterPred.eqFilter "Branch" (Cell.str "X")) [] (by decide)

/-- The designated date columns of the source (lines 214-215). -/
def dateColumns : List String :=
  ["Call Received Date", "Tentative Date", "Engineer Visit Date",
   "Quote Sent", "Call Close Date"]

/-- One cell under `pd.to_datetime(..., errors='coerce')`, parametrised by
the text parser: unparsable text and absent cells coerce to absent, never
raising; numbers convert as epoch offsets; dates pass through. -/
def toDatetimeCell (parse : String → Option Nat) : Cell → Cell
  | Cell.str s =>
    match parse s with
    | some d => Cell.date d
    | none => Cell.absent
  | Cell.num n => Cell.date n.toNat
  | Cell.date d => Cell.date d
  | Cell.absent => Cell.absent

/-- The date-conversion loop applied to one row: every cell sitting in a
designated date column is coerced. -/
def normalizeRow (parse : String → Option Nat) (r : Row) : Row :=
  r.map (fun p => if p.1 ∈ dateColumns then (p.1, toDatetimeCell parse p.2) else p)

/-- The date-conversion loop (lines 218-220) over the whole table. -/
def normalizeDates (parse : String → Option Nat) (t : Table) : Table :=
  ⟨t.cols, t.rows.map (normalizeRow parse)⟩

lemma getCell_normalizeRow (parse : String → Option Nat) (r : Row) (c : String) :
    getCell (normalizeRow parse r) c
      = if c ∈ dateColumns then toDatetimeCell parse (getCell r c) else getCell r c := by
  induction r with
  | nil =>
    by_cases h : c ∈ dateColumns <;> simp [normalizeRow, getCell, toDatetimeCell, h]
  | cons q t ih =>
    obtain ⟨c1, v⟩ := q
    simp only [normalizeRow, List.map_cons] at ih ⊢
    by_cases hd : c1 ∈ dateColumns <;> by_cases hc : c1 = c
    · subst hc
      rw [if_pos hd, getCell_cons, getCell_cons]
      simp [hd]
    · rw [if_pos hd, getCell_cons, getCell_cons, if_neg hc, if_neg hc, ih]
    · subst hc
      rw [if_neg hd, getCell_cons, getCell_cons]
      simp [hd]
    · rw [if_neg hd, getCell_cons, getCell_cons, if_neg hc, if_neg hc, ih]

/-- Claim C8: in every designated date-like column the date-conversion
pass rewrites each cell through the coercing parser, so unparsable text
and absent cells become absent; the pass is a total function, so no cell
value raises; and the whole-table pass is the row-wise pass. -/
theorem c8_date_coercion (parse : String → Option Nat) (r : Row) (cn : String)
    (hcn : cn ∈ dateColumns) :
    getCell (normalizeRow parse r) cn = toDatetimeCell parse (getCell r cn)
    ∧ (∀ s, getCell r cn = Cell.str s → parse s = none →
        getCell (normalizeRow parse r) cn = Cell.absent)
    ∧ (getCell r cn = Cell.absent → getCell (normalizeRow parse r) cn = Cell.absent)
    ∧ (∀ t : Table, (normalizeDates parse t).rows = t.rows.map (normalizeRow parse)) := by
  have hmain : getCell (normalizeRow parse r) cn = toDatetimeCell parse (getCell r cn) := by
    rw [getCell_normalizeRow, if_pos hcn]
  refine ⟨hmain, ?_, ?_, fun t => rfl⟩
  · intro s hs hp
    rw [hmain, hs]
    simp [toDatetimeCell, hp]
  · intro hs
    rw [hmain, hs]
    simp [toDatetimeCell]

/-- Claim C8 witness: with a parser rejecting everything, unparsable text
in `Call Received Date` is coerced to absent. -/
theorem c8_date_coercion_witness :
    getCell (normalizeRow (fun _ => none)
        [("Call Received Date", Cell.str "not a date")]) "Call Received Date"
      = Cell.absent :=
  (c8_date_coercion (fun _ => none) [("Call Received Date", Cell.str "not a date")]
      "Call Received Date" (by decide)).2.1 "not a date" rfl rfl

/-- Characters of `s` lower-cased: the model of `case=False` matching. -/
def toLowerList (s : String) : List Char := s.toList.map Char.toLower

/-- Whether `hay` starts with `needle`, character by character. -/
def listStartsWith : List Char → List Char → Bool
  | [], _ => true
  | _ :: _, [] => false
  | a :: as, b :: bs => a == b && listStartsWith as bs

/-- Whether `needle` occurs contiguously inside `hay`. -/
def containsSub (needle : List Char) : List Char → Bool
  | [] => listStartsWith needle []
  | b :: bs => listStartsWith needle (b :: bs) || containsSub needle bs

/-- `Series.str.contains('Close|Closed', case=False, na=False)` on one
status value: an absent status gives false (`na=False`); otherwise the
lower-cased text is searched for either alternative of the pattern. -/
def statusContainsCloseRegex (status : Option String) : Bool :=
  match status with
  | none => false
  | some s =>
    containsSub (toLowerList "Close") (toLowerList s)
      || containsSub (toLowerList "Closed") (toLowerList s)

/-- The text of a status cell; a non-text cell has no status text (pandas
`.str` yields NaN there, which `na=False` sends to false). -/
def statusCellText : Cell → Option String
  | Cell.str s => some s
  | _ => none

/-- The closed-classification of one row (lines 303-313). -/
def rowClosed (r : Row) : Bool :=
  statusContainsCloseRegex (statusCellText (getCell r "Call Status"))

/-- The open/pending classification, the negation (lines 309-313 and
514-517). -/
def rowOpen (r : Row) : Bool := !rowClosed r

/-- `len(df[contains])`: rows classified closed. -/
def closedCount (t : Table) : Nat := (t.rows.filter (fun r => rowClosed r)).length

/-- `len(df[~contains])`: rows classified pending. -/
def pendingCount (t : Table) : Nat := (t.rows.filter (fun r => rowOpen r)).length

/-- Case-insensitive containment of the substring `close`: the spec's
wording of the closed test. -/
def containsCloseCI (s : String) : Prop :=
  ∃ l r, s.toList.map Char.toLower = l ++ "close".toList ++ r

lemma listStartsWith_iff (n : List Char) :
    ∀ h : List Char, listStartsWith n h = true ↔ ∃ r, h = n ++ r := by
  induction n with
  | nil => intro h; simp [listStartsWith]
  | cons a as ih =>
    intro h
    cases h with
    | nil => simp [listStartsWith]
    | cons b bs =>
      simp only [listStartsWith, Bool.and_eq_true, beq_iff_eq]
      constructor
      · rintro ⟨hab, hsw⟩
        obtain ⟨r, hr⟩ := (ih bs).mp hsw
        exact ⟨r, by simp [hab, hr]⟩
      · rintro ⟨r, hr⟩
        simp only [List.cons_append] at hr
        injection hr with h1 h2
        exact ⟨h1.symm, (ih bs).mpr ⟨r, h2⟩⟩

lemma containsSub_iff (n : List Char) :
    ∀ h : List Char, containsSub n h = true ↔ ∃ l r, h = l ++ n ++ r := by
  intro h
  induction h with
  | nil =>
    constructor
    · intro hc
      obtain ⟨r, hr⟩ := (listStartsWith_iff n []).mp hc
      exact ⟨[], r, by simpa using hr⟩
    · rintro ⟨l, r, hr⟩
      rcases List.append_eq_nil.mp hr.symm with ⟨hln, hrr⟩
      rcases List.append_eq_nil.mp hln with ⟨hl, hn⟩
      subst hn
      decide
  | cons b bs ih =>
    simp only [containsSub, Bool.or_eq_true]
    constructor
    · rintro (hsw | hc)
      · obtain ⟨r, hr⟩ := (listStartsWith_iff n (b :: bs)).mp hsw
        exact ⟨[], r, by simpa using hr⟩
      · obtain ⟨l, r, hr⟩ := ih.mp hc
        exact ⟨b :: l, r, by simp [hr]⟩
    · rintro ⟨l, r, hr⟩
      cases l with
      | nil =>
        exact Or.inl ((listStartsWith_iff n (b :: bs)).mpr ⟨r, by simpa using hr⟩)
      | cons x xs =>
        simp only [List.cons_append] at hr
        injection hr with h1 h2
        exact Or.inr (ih.mpr ⟨xs, r, h2⟩)

lemma containsSub_drop_append {n m h : List Char}
    (hc : containsSub (n ++ m) h = true) : containsSub n h = true := by
  obtain ⟨l, r, hr⟩ := (containsSub_iff _ _).mp hc
  refine (containsSub_iff _ _).mpr ⟨l, m ++ r, ?_⟩
  rw [hr]
  simp [List.append_assoc]

lemma statusContainsCloseRegex_eq (s : String) :
    statusContainsCloseRegex (some s)
      = containsSub (toLowerList "Close") (toLowerList s) := by
  unfold statusContainsCloseRegex
  by_cases h : containsSub (toLowerList "Closed") (toLowerList s) = true
  · have he : toLowerList "Closed" = toLowerList "Close" ++ ['d'] := by decide
    have h2 : containsSub (toLowerList "Close") (toLowerList s) = true :=
      containsSub_drop_append (he ▸ h)
    simp [h, h2]
  · have h2 : containsSub (toLowerList "Closed") (toLowerList s) = false :=
      Bool.eq_false_iff.mpr h
    simp [h2]

/-- Claim C5: a row whose status cell is absent (or not text, where
pandas `.str` yields NaN) is classified open, and a row with status text
`s` is classified open exactly when `s` does not contain the substring
`close` case-insensitively: the `Closed` alternative of the source's
pattern is redundant. -/
theorem c5_open_classification :
    (∀ r : Row, statusCellText (getCell r "Call Status") = none → rowOpen r = true)
    ∧ (∀ (r : Row) (s : String), statusCellText (getCell r "Call Status") = some s →
        (rowOpen r = true ↔ ¬ containsCloseCI s)) := by
  constructor
  · intro r h
    simp [rowOpen, rowClosed, h, statusContainsCloseRegex]
  · intro r s h
    unfold rowOpen rowClosed
    rw [h]
    have hcl : toLowerList "Close" = "close".toList := by decide
    rw [Bool.not_eq_true', statusContainsCloseRegex_eq, hcl, Bool.eq_false_iff]
    exact not_congr (containsSub_iff _ _)

/-- Claim C5 witness: a row with no status column at all is classified
open. -/
theorem c5_open_classification_witness :
    rowOpen [("State", Cell.str "MH")] = true :=
  c5_open_classification.1 [("State", Cell.str "MH")] rfl

lemma length_filter_add_length_filter_not {α : Type} (l : List α) (p : α → Bool) :
    (l.filter p).length + (l.filter (fun a => !p a)).length = l.length := by
  induction l with
  | nil => rfl
  | cons a t ih =>
    cases hp : p a <;> simp [List.filter_cons, hp] <;> omega

/-- Claim C9: on a table carrying the status column, the closed and pending
row counts partition the rows: their sum is the total row count. -/
theorem c9_closed_pending_partition (t : Table) (h : "Call Status" ∈ t.cols) :
    closedCount t + pendingCount t = t.rows.length := by
  have hpart := length_filter_add_length_filter_not t.rows (fun r => rowClosed r)
  simpa [closedCount, pendingCount, rowOpen] using hpart

/-- Claim C9 witness: one closed and one open row sum to the two rows of
the table. -/
theorem c9_closed_pending_partition_witness :
    closedCount ⟨["Call Status"],
        [[("Call Status", Cell.str "Closed")], [("Call Status", Cell.str "Open")]]⟩
      + pendingCount ⟨["Call Status"],
        [[("Call Status", Cell.str "Closed")], [("Call Status", Cell.str "Open")]]⟩
      = 2 := by
  have h := c9_closed_pending_partition ⟨["Call Status"],
    [[("Call Status", Cell.str "Closed")], [("Call Status", Cell.str "Open")]]⟩
    (by decide)
  simpa using h

/-- Insertion of `a` into `l` before the first element `b` with
`le a b`. -/
def insertSorted {α : Type} (le : α → α → Bool) (a : α) : List α → List α
  | [] => [a]
  | b :: t => if le a b then a :: b :: t else b :: insertSorted le a t

/-- Insertion sort by `le`; a total, structurally recursive model of the
sorting pandas applies to grouped keys and counts. -/
def sortBy {α : Type} (le : α → α → Bool) : List α → List α
  | [] => []
  | a :: t => insertSorted le a (sortBy le t)

/-- First-seen-order deduplication of a list. -/
def dedupFirstSeen {α : Type} [DecidableEq α] (l : List α) : List α :=
  l.foldl (fun acc v => if v ∈ acc then acc else acc ++ [v]) []

/-- The non-absent values of a column, in row order. -/
def valsOf (col : List Cell) : List Cell := col.filter (fun c => !(c == Cell.absent))

/-- `Series.value_counts()` (line 332): drop absent values, count the
occurrences of each distinct value, sort by descending count. -/
def valueCounts (col : List Cell) : List (Cell × Nat) :=
  sortBy (fun a b => decide (b.2 ≤ a.2))
    ((dedupFirstSeen (valsOf col)).map (fun v => (v, (valsOf col).count v)))

/-- The cells of one column of a table, in row order. -/
def columnCells (t : Table) (col : String) : List Cell :=
  t.rows.map (fun r => getCell r col)

lemma perm_insertSorted {α : Type} (le : α → α → Bool) (a : α) :
    ∀ l : List α, (insertSorted le a l).Perm (a :: l) := by
  intro l
  induction l with
  | nil => simp [insertSorted]
  | cons b t ih =>
    unfold insertSorted
    by_cases h : le a b
    · rw [if_pos h]
    · rw [if_neg h]
      exact (ih.cons b).trans (List.Perm.swap a b t)

lemma perm_sortBy {α : Type} (le : α → α → Bool) :
    ∀ l : List α, (sortBy le l).Perm l := by
  intro l
  induction l with
  | nil => simp [sortBy]
  | cons a t ih =>
    exact (perm_insertSorted le a (sortBy le t)).trans (ih.cons a)

lemma mem_foldl_dedup {α : Type} [DecidableEq α] :
    ∀ (l acc : List α) (a : α),
      a ∈ l.foldl (fun acc v => if v ∈ acc then acc else acc ++ [v]) acc
        ↔ a ∈ acc ∨ a ∈ l := by
  intro l
  induction l with
  | nil => intro acc a; simp
  | cons v t ih =>
    intro acc a
    rw [List.foldl_cons, ih]
    by_cases hv : v ∈ acc
    · rw [if_pos hv]
      constructor
      · rintro (h | h)
        · exact Or.inl h
        · exact Or.inr (List.mem_cons_of_mem _ h)
      · rintro (h | h)
        · exact Or.inl h
        · rcases List.mem_cons.mp h with h | h
          · exact Or.inl (h ▸ hv)
          · exact Or.inr h
    · rw [if_neg hv]
      simp only [List.mem_append, List.mem_singleton, List.mem_cons]
      tauto

lemma nodup_foldl_dedup {α : Type} [DecidableEq α] :
    ∀ (l acc : List α), acc.Nodup →
      (l.foldl (fun acc v => if v ∈ acc then acc else acc ++ [v]) acc).Nodup := by
  intro l
  induction l with
  | nil => intro acc h; simpa using h
  | cons v t ih =>
    intro acc h
    rw [List.foldl_cons]
    by_cases hv : v ∈ acc
    · rw [if_pos hv]
      exact ih acc h
    · rw [if_neg hv]
      refine ih _ ?_
      rw [List.nodup_append]
      exact ⟨h, List.nodup_singleton v,
        fun x hx hx2 => hv (by rwa [List.mem_singleton.mp hx2] at hx)⟩

lemma mem_dedupFirstSeen {α : Type} [DecidableEq α] (l : List α) (a : α) :
    a ∈ dedupFirstSeen l ↔ a ∈ l := by
  unfold dedupFirstSeen
  rw [mem_foldl_dedup]
  simp

lemma nodup_dedupFirstSeen {α : Type} [DecidableEq α] (l : List α) :
    (dedupFirstSeen l).Nodup := nodup_foldl_dedup l [] List.nodup_nil

lemma sum_counts_of_nodup {α : Type} [DecidableEq α] :
    ∀ (d l : List α), d.Nodup → (∀ a ∈ l, a ∈ d) →
      (d.map (fun v => l.count v)).sum = l.length := by
  intro d
  induction d with
  | nil =>
    intro l hn hm
    cases l with
    | nil => rfl
    | cons a t => exact absurd (hm a (List.mem_cons_self a t)) (List.not_mem_nil a)
  | cons a d ih =>
    intro l hn hm
    have hnd : d.Nodup := hn.of_cons
    have hna : a ∉ d := by
      intro hc
      exact (List.nodup_cons.mp hn).1 hc
    have hcongr : d.map (fun v => l.count v)
        = d.map (fun v => (l.filter (fun x => !(x == a))).count v) := by
      refine List.map_congr_left ?_
      intro v hv
      have hvne : v ≠ a := fun hc => hna (hc ▸ hv)
      rw [List.count_filter]
      simp [hvne]
    have hmem : ∀ x ∈ l.filter (fun y => !(y == a)), x ∈ d := by
      intro x hx
      rcases List.mem_filter.mp hx with ⟨hxl, hxp⟩
      have hxne : x ≠ a := by simpa using hxp
      rcases List.mem_cons.mp (hm x hxl) with h | h
      · exact absurd h hxne
      · exact h
    have hsum := ih (l.filter (fun y => !(y == a))) hnd hmem
    have hsplit := length_filter_add_length_filter_not l (fun x => x == a)
    have hcount : l.count a = (l.filter (fun x => x == a)).length := by
      rw [List.count, List.countP_eq_length_filter]
    rw [List.map_cons, List.sum_cons, hcongr, hsum, hcount]
    rw [← hsplit]

/-- Claim C6: the counts in `value_counts` of a column sum to the number
of rows holding a non-absent value in that column, and no entry of the
frequency table is keyed by the absent value. -/
theorem c6_frequency_sum (t : Table) (col : String) :
    ((valueCounts (columnCells t col)).map (fun p => p.2)).sum
      = (t.rows.filter (fun r => !(getCell r col == Cell.absent))).length
    ∧ ∀ p ∈ valueCounts (columnCells t col), p.1 ≠ Cell.absent := by
  have hperm : (valueCounts (columnCells t col)).Perm
      ((dedupFirstSeen (valsOf (columnCells t col))).map
        (fun v => (v, (valsOf (columnCells t col)).count v))) := by
    unfold valueCounts
    exact perm_sortBy _ _
  constructor
  · rw [(hperm.map (fun p => p.2)).sum_eq, List.map_map]
    have hsum := sum_counts_of_nodup (dedupFirstSeen (valsOf (columnCells t col)))
      (valsOf (columnCells t col)) (nodup_dedupFirstSeen _)
      (fun a ha => (mem_dedupFirstSeen _ a).mpr ha)
    have hcomp : ((fun p : Cell × Nat => p.2) ∘
        (fun v => (v, (valsOf (columnCells t col)).count v)))
        = fun v => (valsOf (columnCells t col)).count v := rfl
    rw [hcomp, hsum]
    unfold valsOf columnCells
    rw [List.filter_map]
    rw [List.length_map]
    rfl
  · intro p hp
    have hp2 : p ∈ (dedupFirstSeen (valsOf (columnCells t col))).map
        (fun v => (v, (valsOf (columnCells t col)).count v)) :=
      hperm.mem_iff.mp hp
    obtain ⟨v, hv, rfl⟩ := List.mem_map.mp hp2
    have hvv : v ∈ valsOf (columnCells t col) := (mem_dedupFirstSeen _ v).mp hv
    have := (List.mem_filter.mp hvv).2
    simpa using this

/-- Claim C6 witness: a two-row table whose `State` column holds `MH`
twice has a frequency table whose counts sum to 2, and its single entry
is not keyed by the absent value. -/
theorem c6_frequency_sum_witness :
    ((valueCounts (columnCells ⟨["State"],
        [[("State", Cell.str "MH")], [("State", Cell.str "MH")]]⟩ "State")).map
      (fun p => p.2)).sum = 2
    ∧ ((Cell.str "MH", 2) : Cell × Nat).1 ≠ Cell.absent := by
  constructor
  · have h := (c6_frequency_sum ⟨["State"],
      [[("State", Cell.str "MH")], [("State", Cell.str "MH")]]⟩ "State").1
    rw [h]
    decide
  · exact (c6_frequency_sum ⟨["State"],
      [[("State", Cell.str "MH")], [("State", Cell.str "MH")]]⟩ "State").2
      (Cell.str "MH", 2) (by decide)

/-- Flag of a row of `prediction_df`: the `Type` column. -/
inductive PointType where
  | actual
  | predicted
deriving DecidableEq

/-- One row of `prediction_df` (lines 496-500): a month (as an absolute
month number), a complaint value and the actual/predicted flag.  Values
are rationals because the prediction mixes counts with a mean. -/
structure ForecastPoint where
  month : Nat
  complaints : Rat
  flag : PointType
deriving DecidableEq

/-- The observed monthly series as rows of `prediction_df` flagged
actual. -/
def observedPoints (monthly : List (Nat × Nat)) : List ForecastPoint :=
  monthly.map (fun p => ⟨p.1, (p.2 : Rat), PointType.actual⟩)

/-- Result of the forecast block: either the observed-plus-predicted rows
of `prediction_df`, or — when fewer than 3 monthly buckets exist and the
whole block is skipped — the observed series alone, the
insufficient-history signal. -/
inductive ForecastResult where
  | forecasted (points : List ForecastPoint)
  | insufficientHistory (observed : List ForecastPoint)
deriving DecidableEq

/-- Counts of `monthly_data.tail(3)` as rationals. -/
def tail3Counts (monthly : List (Nat × Nat)) : List Rat :=
  (monthly.drop (monthly.length - 3)).map (fun p => (p.2 : Rat))

/-- `last_3_months_avg` (line 482): the mean of the tail-3 counts. -/
def last3MonthsAvg (monthly : List (Nat × Nat)) : Rat :=
  (tail3Counts monthly).sum / ((tail3Counts monthly).length : Rat)

/-- `trend` (line 483): last minus first of the tail-3 counts, halved. -/
def trendOf (monthly : List (Nat × Nat)) : Rat :=
  (((tail3Counts monthly).getLast?).getD 0 - ((tail3Counts monthly).head?).getD 0) / 2

/-- `next_month_prediction` (line 484). -/
def nextMonthPrediction (monthly : List (Nat × Nat)) : Rat :=
  last3MonthsAvg monthly + trendOf monthly

/-- Month of the last observed bucket (`monthly_data.index[-1]`). -/
def lastMonthOf (monthly : List (Nat × Nat)) : Nat :=
  ((monthly.getLast?).map (fun p => p.1)).getD 0

/-- The forecast block (lines 481-500).  With at least 3 monthly buckets,
`prediction_df` is the observed series followed by the three calendar
months after the last observed one (`pd.date_range(last, periods=4,
freq='M')[1:]`), each carrying `next_month_prediction` and flagged
predicted.  With fewer buckets the block is skipped: the observed series
stands unchanged with no predicted rows. -/
def forecast (monthly : List (Nat × Nat)) : ForecastResult :=
  if 3 ≤ monthly.length then
    ForecastResult.forecasted
      (observedPoints monthly ++
        [lastMonthOf monthly + 1, lastMonthOf monthly + 2, lastMonthOf monthly + 3].map
          (fun m => ⟨m, nextMonthPrediction monthly, PointType.predicted⟩))
  else
    ForecastResult.insufficientHistory (observedPoints monthly)

/-- `df.groupby(df[dateCol].dt.to_period('M')).size()` (line 478): bucket
the non-absent dates by calendar month (`monthOf` mapping a date to its
absolute month number), keys sorted ascending as groupby sorts them,
each with its occurrence count. -/
def monthlyBuckets (monthOf : Nat → Nat) (dates : List (Option Nat)) : List (Nat × Nat) :=
  (sortBy (fun a b => decide (a ≤ b))
      (dedupFirstSeen ((dates.filterMap id).map monthOf))).map
    (fun m => (m, ((dates.filterMap id).map monthOf).count m))

/-- The date column of a table as optional date values: non-date cells
(including absent ones) are NaT and are excluded from the grouping. -/
def dateCellsOf (t : Table) (col : String) : List (Option Nat) :=
  t.rows.map (fun r =>
    match getCell r col with
    | Cell.date d => some d
    | _ => none)

/-- Claim C3: on a monthly series ending in counts `a3, a2, a1`, the
forecast appends after the observed series exactly three future months
after the last observed one, each carrying
`mean(a3, a2, a1) + (a1 - a3) / 2` and flagged predicted; for counts
10, 12, 14 that predicted value is 14. -/
theorem c3_forecast_rule :
    (∀ (pre : List (Nat × Nat)) (k3 k2 k1 a3 a2 a1 : Nat),
      forecast (pre ++ [(k3, a3), (k2, a2), (k1, a1)])
        = ForecastResult.forecasted
            (observedPoints (pre ++ [(k3, a3), (k2, a2), (k1, a1)])
              ++ [⟨k1 + 1, ((a3 : Rat) + a2 + a1) / 3 + ((a1 : Rat) - a3) / 2,
                    PointType.predicted⟩,
                  ⟨k1 + 2, ((a3 : Rat) + a2 + a1) / 3 + ((a1 : Rat) - a3) / 2,
                    PointType.predicted⟩,
                  ⟨k1 + 3, ((a3 : Rat) + a2 + a1) / 3 + ((a1 : Rat) - a3) / 2,
                    PointType.predicted⟩]))
    ∧ nextMonthPrediction [(0, 10), (1, 12), (2, 14)] = 14 := by
  constructor
  · intro pre k3 k2 k1 a3 a2 a1
    have hlen : (pre ++ [(k3, a3), (k2, a2), (k1, a1)]).length = pre.length + 3 := by
      simp
    have hdrop : (pre ++ [(k3, a3), (k2, a2), (k1, a1)]).drop
        ((pre ++ [(k3, a3), (k2, a2), (k1, a1)]).length - 3)
        = [(k3, a3), (k2, a2), (k1, a1)] := by
      rw [hlen]
      have h3 : pre.length + 3 - 3 = pre.length := by omega
      rw [h3, List.drop_left]
    have htail : tail3Counts (pre ++ [(k3, a3), (k2, a2), (k1, a1)])
        = [(a3 : Rat), (a2 : Rat), (a1 : Rat)] := by
      unfold tail3Counts
      rw [hdrop]
      rfl
    have havg : last3MonthsAvg (pre ++ [(k3, a3), (k2, a2), (k1, a1)])
        = ((a3 : Rat) + a2 + a1) / 3 := by
      unfold last3MonthsAvg
      rw [htail]
      simp [List.sum_cons]
      ring_nf
    have htrend : trendOf (pre ++ [(k3, a3), (k2, a2), (k1, a1)])
        = ((a1 : Rat) - a3) / 2 := by
      unfold trendOf
      rw [htail]
      rfl
    have hlast : lastMonthOf (pre ++ [(k3, a3), (k2, a2), (k1, a1)]) = k1 := by
      unfold lastMonthOf
      have hsplit : pre ++ [(k3, a3), (k2, a2), (k1, a1)]
          = (pre ++ [(k3, a3), (k2, a2)]) ++ [(k1, a1)] := by simp
      rw [hsplit, List.getLast?_concat]
      rfl
    have hpred : nextMonthPrediction (pre ++ [(k3, a3), (k2, a2), (k1, a1)])
        = ((a3 : Rat) + a2 + a1) / 3 + ((a1 : Rat) - a3) / 2 := by
      unfold nextMonthPrediction
      rw [havg, htrend]
    unfold forecast
    rw [if_pos (by rw [hlen]; omega), hpred, hlast]
    rfl
  · have hred : nextMonthPrediction [(0, 10), (1, 12), (2, 14)]
        = (((10 : Nat) : Rat) + (((12 : Nat) : Rat) + (((14 : Nat) : Rat) + 0)))
            / ((3 : Nat) : Rat)
          + (((14 : Nat) : Rat) - ((10 : Nat) : Rat)) / 2 := rfl
    rw [hred]
    norm_num

/-- Claim C4: whenever the date column of a table yields fewer than 3
monthly buckets, the forecast is the insufficient-history signal carrying
the observed series unchanged, every point of which is flagged actual —
no predicted point is appended. -/
theorem c4_insufficient_history (monthOf : Nat → Nat) (t : Table) (col : String)
    (h : (monthlyBuckets monthOf (dateCellsOf t col)).length < 3) :
    forecast (monthlyBuckets monthOf (dateCellsOf t col))
        = ForecastResult.insufficientHistory
            (observedPoints (monthlyBuckets monthOf (dateCellsOf t col)))
    ∧ ∀ p ∈ observedPoints (monthlyBuckets monthOf (dateCellsOf t col)),
        p.flag = PointType.actual := by
  constructor
  · unfold forecast
    rw [if_neg (by omega)]
  · intro p hp
    obtain ⟨q, hq, rfl⟩ := List.mem_map.mp hp
    rfl

/-- Claim C4 witness: a table with two dated rows in distinct months has
two buckets, so the forecast is the unchanged observed series with both
points flagged actual. -/
theorem c4_insufficient_history_witness :
    forecast (monthlyBuckets (fun d => d)
        (dateCellsOf ⟨["Call Received Date"],
          [[("Call Received Date", Cell.date 0)],
           [("Call Received Date", Cell.date 1)]]⟩ "Call Received Date"))
      = ForecastResult.insufficientHistory
          (observedPoints (monthlyBuckets (fun d => d)
            (dateCellsOf ⟨["Call Received Date"],
              [[("Call Received Date", Cell.date 0)],
               [("Call Received Date", Cell.date 1)]]⟩ "Call Received Date")))
    ∧ (⟨0, ((1 : Nat) : Rat), PointType.actual⟩ : ForecastPoint).flag
        = PointType.actual :=
  ⟨(c4_insufficient_history (fun d => d)
      ⟨["Call Received Date"],
        [[("Call Received Date", Cell.date 0)],
         [("Call Received Date", Cell.date 1)]]⟩ "Call Received Date" (by decide)).1,
    (c4_insufficient_history (fun d => d)
      ⟨["Call Received Date"],
        [[("Call Received Date", Cell.date 0)],
         [("Call Received Date", Cell.date 1)]]⟩ "Call Received Date" (by decide)).2
      ⟨0, ((1 : Nat) : Rat), PointType.actual⟩ (by decide)⟩

end StreamlitDashboard
